import Mathlib

/-!
Verification of the chunked-summarization pipeline from
`Summarizing_long_documents.ipynb`.

The tokenizer (`tiktoken`) and the completion service (OpenAI chat API) are
external collaborators; they are modelled as function parameters:
`tok : String → Nat` stands for `fun text => len(tokenize(text))`, and
`complete : String → String → String` stands for
`fun system user => get_chat_completion([system message, user message])`.

All integers that are Python `int`s in the source are modelled as `Int`
(token counts themselves are `Nat`, coerced where compared), and the
float `detail` is modelled as a rational number.
-/

namespace BookSum

/-- Python `sep.join(xs)`: the empty string on `[]`, the single element on
`[x]`, and elements interleaved with `sep` otherwise. -/
def pyJoin (sep : String) : List String → String
  | [] => ""
  | [x] => x
  | x :: y :: ys => x ++ sep ++ pyJoin sep (y :: ys)

/-- Engine of Python `s.split(sep)` on character lists: scan left to right,
cutting at each non-overlapping occurrence of `sep`.  `fuel` bounds the
recursion; one unit is spent per step and each step consumes at least one
character, so `fuel = s.length` is always enough (the fuel-exhausted branch
returns the remainder as a final segment and is never reached from
`pySplit`). -/
def pySplitAux (sep : List Char) : Nat → List Char → List (List Char)
  | 0, s => [s]
  | fuel + 1, s =>
    if sep.isPrefixOf s then
      [] :: pySplitAux sep fuel (s.drop sep.length)
    else
      match s with
      | [] => [[]]
      | c :: rest =>
        match pySplitAux sep fuel rest with
        | [] => [[c]]
        | g :: gs => (c :: g) :: gs

/-- Python `s.split(sep)` for a non-empty separator.  (Python raises
`ValueError` on an empty separator; that case is modelled as the whole
string in one segment and is never exercised by the claims.) -/
def pySplit (s : String) (sep : String) : List String :=
  if sep.data = [] then [s]
  else (pySplitAux sep.data s.data.length s.data).map (fun l => ⟨l⟩)

/-- The `chunk_with_header` list built at the top of the packing loop:
`[chunk] if header is None else [header, chunk]`. -/
def chunkWithHeader (header : Option String) (chunk : String) : List String :=
  match header with
  | none => [chunk]
  | some h => [h, chunk]

/-- The guard of the overflow branch of `combine_chunks_with_no_minimum`:
`len(tokenize(chunk_delimiter.join(chunk_with_header))) > max_tokens`. -/
def overflows (tok : String → Nat) (maxTokens : Int) (d : String)
    (header : Option String) (chunk : String) : Bool :=
  decide (maxTokens < (tok (pyJoin d (chunkWithHeader header chunk)) : Int))

/-- The mutable locals of `combine_chunks_with_no_minimum`. -/
structure CombineState where
  dropped : Nat
  output : List String
  outputIndices : List (List Nat)
  candidate : List String
  candidateIndices : List Nat
  deriving Repr, DecidableEq

/-- One iteration of the `for chunk_i, chunk in enumerate(chunks)` loop of
`combine_chunks_with_no_minimum`. -/
def combineStep (tok : String → Nat) (maxTokens : Int) (d : String)
    (header : Option String) (ell : Bool)
    (st : CombineState) (i : Nat) (chunk : String) : CombineState :=
  if maxTokens < (tok (pyJoin d (chunkWithHeader header chunk)) : Int) then
    -- `continue # this case would break downstream assumptions`
    if ell = true ∧ (tok (pyJoin d (st.candidate ++ ["..."])) : Int) ≤ maxTokens then
      { st with
        candidate := st.candidate ++ ["..."]
        dropped := st.dropped + 1 }
    else st
  else
    if maxTokens < (tok (pyJoin d (st.candidate ++ [chunk])) : Int) then
      { st with
        output := st.output ++ [pyJoin d st.candidate]
        outputIndices := st.outputIndices ++ [st.candidateIndices]
        candidate := chunkWithHeader header chunk
        candidateIndices := [i] }
    else
      { st with
        candidate := st.candidate ++ [chunk]
        candidateIndices := st.candidateIndices ++ [i] }

/-- The whole packing loop, threading the running segment index. -/
def combineLoop (tok : String → Nat) (maxTokens : Int) (d : String)
    (header : Option String) (ell : Bool)
    (i : Nat) (st : CombineState) : List String → CombineState
  | [] => st
  | chunk :: rest =>
      combineLoop tok maxTokens d header ell (i + 1)
        (combineStep tok maxTokens d header ell st i chunk) rest

/-- The initial candidate: `[] if header is None else [header]`. -/
def initCandidate (header : Option String) : List String :=
  match header with
  | none => []
  | some h => [h]

/-- `combine_chunks_with_no_minimum(chunks, max_tokens, chunk_delimiter,
header, add_ellipsis_for_overflow)`: returns the combined chunk strings,
their original index groups, and the dropped-chunk count. -/
def combine_chunks_with_no_minimum (tok : String → Nat)
    (chunks : List String) (maxTokens : Int) (d : String)
    (header : Option String) (ell : Bool) :
    List String × List (List Nat) × Nat :=
  let st := combineLoop tok maxTokens d header ell 0
    ⟨0, [], [], initCandidate header, []⟩ chunks
  if (header ≠ none ∧ 1 < st.candidate.length) ∨
      (header = none ∧ 0 < st.candidate.length) then
    (st.output ++ [pyJoin d st.candidate],
      st.outputIndices ++ [st.candidateIndices], st.dropped)
  else
    (st.output, st.outputIndices, st.dropped)

/-- `chunk_on_delimiter(input_string, max_tokens, delimiter)`: split on the
delimiter, pack with no header and ellipsis-on-overflow enabled, re-append
the delimiter to every combined chunk.  The boolean records whether the
`"warning: ... chunks were dropped due to overflow"` message is printed,
i.e. whether `dropped_chunk_count > 0`. -/
def chunk_on_delimiter (tok : String → Nat) (input_string : String)
    (maxTokens : Int) (delimiter : String) : List String × Bool :=
  let r := combine_chunks_with_no_minimum tok (pySplit input_string delimiter)
    maxTokens delimiter none true
  ((r.1).map (fun chunk => chunk ++ delimiter), decide (0 < r.2.2))

/-- Python `int(q)` for a rational: truncation toward zero. -/
def ratTrunc (q : ℚ) : Int :=
  if q < 0 then ⌈q⌉ else ⌊q⌋

/-- `max_chunks = len(chunk_on_delimiter(text, minimum_chunk_size,
chunk_delimiter))` in `summarize`. -/
def max_chunks (tok : String → Nat) (text : String)
    (minimum_chunk_size : Int) (delim : String) : Nat :=
  ((chunk_on_delimiter tok text minimum_chunk_size delim).1).length

/-- `num_chunks = int(min_chunks + detail * (max_chunks - min_chunks))`
with `min_chunks = 1` in `summarize`. -/
def num_chunks (tok : String → Nat) (text : String) (detail : ℚ)
    (minimum_chunk_size : Int) (delim : String) : Int :=
  ratTrunc (1 + detail * ((max_chunks tok text minimum_chunk_size delim : ℚ) - 1))

/-- `chunk_size = max(minimum_chunk_size, document_length // num_chunks)`
in `summarize`, with `document_length = len(tokenize(text))` and `//`
Python floor division. -/
def chunk_size (tok : String → Nat) (text : String) (detail : ℚ)
    (minimum_chunk_size : Int) (delim : String) : Int :=
  max minimum_chunk_size
    (Int.fdiv (tok text : Int) (num_chunks tok text detail minimum_chunk_size delim))

/-- The system message of `summarize`: the fixed instruction, optionally
extended with `"\n\n" + additional_instructions`. -/
def system_message_content (additional_instructions : Option String) : String :=
  match additional_instructions with
  | none => "Rewrite this text in summarized form."
  | some ai => "Rewrite this text in summarized form." ++ "\n\n" ++ ai

/-- The user message built for one chunk inside the summarization loop:
the recursive-context prompt when `summarize_recursively` is set and
summaries have accumulated, the raw chunk otherwise. -/
def user_message_content (rec : Bool) (acc : List String) (chunk : String) : String :=
  if rec = true ∧ acc ≠ [] then
    "Previous summaries:\n\n" ++ pyJoin "\n\n" acc ++
      "\n\nText to summarize next:\n\n" ++ chunk
  else chunk

/-- The `for chunk in text_chunks` loop of `summarize`: for each chunk,
build the user message from the accumulated summaries, call the completion
service, and append its output.  Returns the (user message, summary) pair
per chunk, in order. -/
def runChunks (complete : String → String → String) (sys : String)
    (rec : Bool) (acc : List String) : List String → List (String × String)
  | [] => []
  | chunk :: rest =>
      let m := user_message_content rec acc chunk
      let s := complete sys m
      (m, s) :: runChunks complete sys rec (acc ++ [s]) rest

/-- `summarize(text, detail, ..., minimum_chunk_size, chunk_delimiter,
summarize_recursively)`.  The leading `assert 0 <= detail <= 1` is modelled
by returning `none` when it fails; otherwise the final summary is the
accumulated chunk summaries joined by a blank line.  (`model` is folded
into the `complete` oracle; `verbose`/`tqdm` printing has no behavioural
effect and is omitted.) -/
def summarize (tok : String → Nat) (complete : String → String → String)
    (text : String) (detail : ℚ) (additional_instructions : Option String)
    (minimum_chunk_size : Int) (chunk_delimiter : String)
    (rec : Bool) : Option String :=
  if 0 ≤ detail ∧ detail ≤ 1 then
    let text_chunks :=
      (chunk_on_delimiter tok text
        (chunk_size tok text detail minimum_chunk_size chunk_delimiter)
        chunk_delimiter).1
    let pairs := runChunks complete (system_message_content additional_instructions)
      rec [] text_chunks
    some (pyJoin "\n\n" (pairs.map Prod.snd))
  else none

/-- The ordered list of indices (counting from `i`) of the segments that
are not skipped by the overflow branch of the packing loop. -/
def keptIndices (tok : String → Nat) (maxTokens : Int) (d : String)
    (header : Option String) : Nat → List String → List Nat
  | _, [] => []
  | i, c :: cs =>
    if maxTokens < (tok (pyJoin d (chunkWithHeader header c)) : Int) then
      keptIndices tok maxTokens d header (i + 1) cs
    else
      i :: keptIndices tok maxTokens d header (i + 1) cs

example :
    combine_chunks_with_no_minimum String.length ["a", "b", "ccccc", "d"] 4 "" none true
      = (["abd"], [[0, 1, 3]], 0) := by decide

example :
    (chunk_on_delimiter String.length "abc.zzzzz" 3 ".") = (["abc."], false) := by decide

example : pySplit "a.b..c" "." = ["a", "b", "", "c"] := by decide

/-! ### Token bound of sealed chunks (claim C1) -/

lemma combineStep_bound (tok : String → Nat) (M : Int) (d : String)
    (header : Option String) (ell : Bool) (st : CombineState) (i : Nat) (c : String)
    (h1 : st.candidate = initCandidate header ∨ (tok (pyJoin d st.candidate) : Int) ≤ M)
    (h2 : ∀ o ∈ st.output, (tok o : Int) ≤ M) :
    ((combineStep tok M d header ell st i c).candidate = initCandidate header ∨
      (tok (pyJoin d (combineStep tok M d header ell st i c).candidate) : Int) ≤ M) ∧
    (∀ o ∈ (combineStep tok M d header ell st i c).output, (tok o : Int) ≤ M) := by
  unfold combineStep
  by_cases hov : M < (tok (pyJoin d (chunkWithHeader header c)) : Int)
  · simp only [if_pos hov]
    by_cases hel : ell = true ∧ (tok (pyJoin d (st.candidate ++ ["..."])) : Int) ≤ M
    · simp only [if_pos hel]
      exact ⟨Or.inr hel.2, h2⟩
    · simp only [if_neg hel]
      exact ⟨h1, h2⟩
  · simp only [if_neg hov]
    by_cases hex : M < (tok (pyJoin d (st.candidate ++ [c])) : Int)
    · simp only [if_pos hex]
      refine ⟨Or.inr (not_lt.mp hov), ?_⟩
      intro o ho
      rcases List.mem_append.mp ho with h | h
      · exact h2 o h
      · rcases List.mem_singleton.mp h with rfl
        rcases h1 with hinit | hb
        · exfalso
          rw [hinit] at hex
          cases header with
          | none =>
              simp only [initCandidate, chunkWithHeader, List.nil_append] at hex hov
              exact hov hex
          | some hh =>
              simp only [initCandidate, chunkWithHeader, List.singleton_append] at hex hov
              exact hov hex
        · exact hb
    · simp only [if_neg hex]
      exact ⟨Or.inr (not_lt.mp hex), h2⟩

lemma combineLoop_bound (tok : String → Nat) (M : Int) (d : String)
    (header : Option String) (ell : Bool) (l : List String) :
    ∀ (i : Nat) (st : CombineState),
      (st.candidate = initCandidate header ∨ (tok (pyJoin d st.candidate) : Int) ≤ M) →
      (∀ o ∈ st.output, (tok o : Int) ≤ M) →
      (((combineLoop tok M d header ell i st l).candidate = initCandidate header ∨
        (tok (pyJoin d (combineLoop tok M d header ell i st l).candidate) : Int) ≤ M) ∧
      (∀ o ∈ (combineLoop tok M d header ell i st l).output, (tok o : Int) ≤ M)) := by
  induction l with
  | nil => intro i st h1 h2; exact ⟨h1, h2⟩
  | cons c rest ih =>
      intro i st h1 h2
      have hs := combineStep_bound tok M d header ell st i c h1 h2
      simp only [combineLoop]
      exact ih (i + 1) _ hs.1 hs.2

lemma combine_output_bound (tok : String → Nat) (M : Int) (d : String)
    (header : Option String) (ell : Bool) (chunks : List String) :
    ∀ o ∈ (combine_chunks_with_no_minimum tok chunks M d header ell).1,
      (tok o : Int) ≤ M := by
  intro o ho
  simp only [combine_chunks_with_no_minimum] at ho
  have hb := combineLoop_bound tok M d header ell chunks 0
    ⟨0, [], [], initCandidate header, []⟩ (Or.inl rfl) (by intro x hx; simp at hx)
  set st := combineLoop tok M d header ell 0
    ⟨0, [], [], initCandidate header, []⟩ chunks with hst
  by_cases hg : (header ≠ none ∧ 1 < st.candidate.length) ∨
      (header = none ∧ 0 < st.candidate.length)
  · rw [if_pos hg] at ho
    rcases List.mem_append.mp ho with h | h
    · exact hb.2 o h
    · rcases List.mem_singleton.mp h with rfl
      rcases hb.1 with hinit | hbd
      · exfalso
        rcases hg with ⟨hne, hlen⟩ | ⟨he, hlen⟩
        · rw [hinit] at hlen
          cases header with
          | none => exact hne rfl
          | some hh => simp [initCandidate] at hlen
        · rw [he] at hinit
          rw [hinit] at hlen
          simp [initCandidate] at hlen
      · exact hbd
  · rw [if_neg hg] at ho
    exact hb.2 o ho

/-- C1: for every segment list, every `max_tokens` and every delimiter,
every chunk returned by `chunk_on_delimiter` has token count at most
`max_tokens` plus the token count of the delimiter (for a subadditive
token counter), and every chunk sealed by `combine_chunks_with_no_minimum`
(delimiter-joined, header included if present) has token count at most
`max_tokens` before the trailing delimiter is reattached. -/
theorem chunk_token_bound (tok : String → Nat)
    (htok : ∀ a b : String, tok (a ++ b) ≤ tok a + tok b)
    (M : Int) (hM : 1 ≤ M) (text d : String) (chunks : List String)
    (header : Option String) (ell : Bool) :
    (∀ c ∈ (chunk_on_delimiter tok text M d).1, (tok c : Int) ≤ M + (tok d : Int)) ∧
    (∀ o ∈ (combine_chunks_with_no_minimum tok chunks M d header ell).1,
      (tok o : Int) ≤ M) := by
  constructor
  · intro c hc
    simp only [chunk_on_delimiter] at hc
    rcases List.mem_map.mp hc with ⟨o, ho, rfl⟩
    have hb := combine_output_bound tok M d none true (pySplit text d) o ho
    have hsub : (tok (o ++ d) : Int) ≤ (tok o : Int) + (tok d : Int) := by
      exact_mod_cast htok o d
    omega
  · exact combine_output_bound tok M d header ell chunks

/-- Witness for C1 at a concrete tokenizer and inputs. -/
theorem chunk_token_bound_witness :
    (∀ a b : String, (a ++ b).length ≤ a.length + b.length) ∧ (1 ≤ (5 : Int)) ∧
    (∀ c ∈ (chunk_on_delimiter String.length "ab.cd.ef" 5 ".").1,
      (c.length : Int) ≤ 5 + (".".length : Int)) ∧
    (∀ o ∈ (combine_chunks_with_no_minimum String.length ["x", "y"] 5 "."
        (some "H") true).1, (o.length : Int) ≤ 5) := by
  refine ⟨fun a b => le_of_eq (String.length_append a b), by decide, ?_, ?_⟩
  · exact (chunk_token_bound String.length
      (fun a b => le_of_eq (String.length_append a b)) 5 (by decide)
      "ab.cd.ef" "." ["x", "y"] (some "H") true).1
  · exact (chunk_token_bound String.length
      (fun a b => le_of_eq (String.length_append a b)) 5 (by decide)
      "ab.cd.ef" "." ["x", "y"] (some "H") true).2

/-! ### Index bookkeeping (claims C2, C4) -/

lemma combineStep_indices (tok : String → Nat) (M : Int) (d : String)
    (header : Option String) (ell : Bool) (st : CombineState) (i : Nat) (c : String) :
    (combineStep tok M d header ell st i c).outputIndices.flatten ++
      (combineStep tok M d header ell st i c).candidateIndices
    = (st.outputIndices.flatten ++ st.candidateIndices) ++
      (if M < (tok (pyJoin d (chunkWithHeader header c)) : Int) then [] else [i]) := by
  unfold combineStep
  by_cases hov : M < (tok (pyJoin d (chunkWithHeader header c)) : Int)
  · simp only [if_pos hov]
    by_cases hel : ell = true ∧ (tok (pyJoin d (st.candidate ++ ["..."])) : Int) ≤ M
    · simp [if_pos hel]
    · simp [if_neg hel]
  · simp only [if_neg hov]
    by_cases hex : M < (tok (pyJoin d (st.candidate ++ [c])) : Int)
    · simp only [if_pos hex]
      simp [List.flatten_append, List.append_assoc]
    · simp only [if_neg hex]
      simp [List.append_assoc]

lemma combineLoop_indices (tok : String → Nat) (M : Int) (d : String)
    (header : Option String) (ell : Bool) (l : List String) :
    ∀ (i : Nat) (st : CombineState),
      (combineLoop tok M d header ell i st l).outputIndices.flatten ++
        (combineLoop tok M d header ell i st l).candidateIndices
      = (st.outputIndices.flatten ++ st.candidateIndices) ++
          keptIndices tok M d header i l := by
  induction l with
  | nil => intro i st; simp [combineLoop, keptIndices]
  | cons c rest ih =>
      intro i st
      simp only [combineLoop]
      rw [ih (i + 1) _, combineStep_indices]
      by_cases hov : M < (tok (pyJoin d (chunkWithHeader header c)) : Int)
      · simp [keptIndices, if_pos hov]
      · simp [keptIndices, if_neg hov, List.append_assoc]

lemma combineStep_ciInv (tok : String → Nat) (M : Int) (d : String)
    (header : Option String) (ell : Bool) (st : CombineState) (i : Nat) (c : String)
    (h : (st.candidateIndices = [] ∨
          (initCandidate header).length < st.candidate.length) ∧
        (initCandidate header).length ≤ st.candidate.length) :
    ((combineStep tok M d header ell st i c).candidateIndices = [] ∨
      (initCandidate header).length <
        (combineStep tok M d header ell st i c).candidate.length) ∧
    (initCandidate header).length ≤
      (combineStep tok M d header ell st i c).candidate.length := by
  obtain ⟨h1, h2⟩ := h
  unfold combineStep
  by_cases hov : M < (tok (pyJoin d (chunkWithHeader header c)) : Int)
  · simp only [if_pos hov]
    by_cases hel : ell = true ∧ (tok (pyJoin d (st.candidate ++ ["..."])) : Int) ≤ M
    · simp only [if_pos hel, List.length_append, List.length_cons, List.length_nil]
      constructor
      · rcases h1 with h1 | h1
        · exact Or.inl h1
        · exact Or.inr (by omega)
      · omega
    · simp only [if_neg hel]
      exact ⟨h1, h2⟩
  · simp only [if_neg hov]
    by_cases hex : M < (tok (pyJoin d (st.candidate ++ [c])) : Int)
    · simp only [if_pos hex]
      have hlen : (initCandidate header).length < (chunkWithHeader header c).length := by
        cases header <;> simp [initCandidate, chunkWithHeader]
      exact ⟨Or.inr hlen, le_of_lt hlen⟩
    · simp only [if_neg hex, List.length_append, List.length_cons, List.length_nil]
      exact ⟨Or.inr (by omega), by omega⟩

lemma combineLoop_ciInv (tok : String → Nat) (M : Int) (d : String)
    (header : Option String) (ell : Bool) (l : List String) :
    ∀ (i : Nat) (st : CombineState),
      ((st.candidateIndices = [] ∨
        (initCandidate header).length < st.candidate.length) ∧
       (initCandidate header).length ≤ st.candidate.length) →
      (((combineLoop tok M d header ell i st l).candidateIndices = [] ∨
        (initCandidate header).length <
          (combineLoop tok M d header ell i st l).candidate.length) ∧
       (initCandidate header).length ≤
          (combineLoop tok M d header ell i st l).candidate.length) := by
  induction l with
  | nil => intro i st h; exact h
  | cons c rest ih =>
      intro i st h
      simp only [combineLoop]
      exact ih (i + 1) _ (combineStep_ciInv tok M d header ell st i c h)

lemma combine_flatten_indices (tok : String → Nat) (M : Int) (d : String)
    (header : Option String) (ell : Bool) (chunks : List String) :
    ((combine_chunks_with_no_minimum tok chunks M d header ell).2.1).flatten
      = keptIndices tok M d header 0 chunks := by
  simp only [combine_chunks_with_no_minimum]
  have hind := combineLoop_indices tok M d header ell chunks 0
    ⟨0, [], [], initCandidate header, []⟩
  have hinv := combineLoop_ciInv tok M d header ell chunks 0
    ⟨0, [], [], initCandidate header, []⟩ (by constructor <;> simp)
  set st := combineLoop tok M d header ell 0
    ⟨0, [], [], initCandidate header, []⟩ chunks with hst
  simp only [List.flatten_nil, List.nil_append] at hind
  by_cases hg : (header ≠ none ∧ 1 < st.candidate.length) ∨
      (header = none ∧ 0 < st.candidate.length)
  · rw [if_pos hg]
    simpa [List.flatten_append] using hind
  · rw [if_neg hg]
    have hci : st.candidateIndices = [] := by
      rcases hinv.1 with h | h
      · exact h
      · exfalso
        apply hg
        cases header with
        | none => exact Or.inr ⟨rfl, by simpa [initCandidate] using h⟩
        | some hh => exact Or.inl ⟨by simp, by simpa [initCandidate] using h⟩
    rw [hci, List.append_nil] at hind
    exact hind

lemma keptIndices_eq_filter (tok : String → Nat) (M : Int) (d : String)
    (header : Option String) (l : List String) :
    ∀ i, keptIndices tok M d header i l
      = ((List.range l.length).filter
          (fun k => !(overflows tok M d header (l.getD k "")))).map (· + i) := by
  induction l with
  | nil => intro i; simp [keptIndices]
  | cons c cs ih =>
      intro i
      have hcong : ∀ R : List Nat,
          R.filter ((fun k => !(overflows tok M d header ((c :: cs).getD k ""))) ∘ Nat.succ)
            = R.filter (fun k => !(overflows tok M d header (cs.getD k ""))) := by
        intro R
        apply List.filter_congr
        intro x _
        simp [Function.comp]
      rw [List.length_cons, List.range_succ_eq_map]
      by_cases hov : M < (tok (pyJoin d (chunkWithHeader header c)) : Int)
      · have hp0 : (!(overflows tok M d header ((c :: cs).getD 0 ""))) = false := by
          simp [overflows, hov]
        rw [keptIndices, if_pos hov, ih (i + 1)]
        rw [List.filter_cons, hp0]
        simp only [Bool.false_eq_true, if_false]
        rw [List.filter_map, hcong, List.map_map]
        congr 1
        funext k
        show k + (i + 1) = k + 1 + i
        omega
      · have hp0 : (!(overflows tok M d header ((c :: cs).getD 0 ""))) = true := by
          simp [overflows, hov]
        rw [keptIndices, if_neg hov, ih (i + 1)]
        rw [List.filter_cons, hp0]
        simp only [if_true]
        rw [List.filter_map, hcong, List.map_cons, List.map_map]
        congr 1
        · omega
        · congr 1
          funext k
          show k + (i + 1) = k + 1 + i
          omega

lemma combine_flatten_eq_filter (tok : String → Nat) (M : Int)
    (d : String) (header : Option String) (ell : Bool) (chunks : List String) :
    ((combine_chunks_with_no_minimum tok chunks M d header ell).2.1).flatten
      = (List.range chunks.length).filter
          (fun k => !(overflows tok M d header (chunks.getD k ""))) := by
  rw [combine_flatten_indices, keptIndices_eq_filter]
  simp

/-- C2: the index groups returned by `combine_chunks_with_no_minimum`,
concatenated in order, equal exactly the increasing sequence of indices of
the segments that are not dropped by the overflow path: every non-dropped
index appears exactly once and in order, and no non-dropped index is
missing. -/
theorem index_groups_exact_partition (tok : String → Nat) (M : Int)
    (d : String) (header : Option String) (ell : Bool) (chunks : List String) :
    ((combine_chunks_with_no_minimum tok chunks M d header ell).2.1).flatten
      = (List.range chunks.length).filter
          (fun k => !(overflows tok M d header (chunks.getD k ""))) :=
  combine_flatten_eq_filter tok M d header ell chunks

/-- C4 counterexample: with a middle segment that overflows alone, the
index group of the surrounding chunk is `[0, 1, 3]`, which is not a
contiguous run `i, i+1, ..., j` of original segment indices. -/
theorem index_group_gap_counterexample :
    (combine_chunks_with_no_minimum String.length
        ["a", "b", "ccccc", "d"] 4 "" none true).2.1 = [[0, 1, 3]]
    ∧ ¬ ∃ a n, ([0, 1, 3] : List Nat) = List.range' a n := by
  refine ⟨by decide, ?_⟩
  rintro ⟨a, n, h⟩
  have hn : n = 3 := by
    have hl := congrArg List.length h
    simpa [List.length_range'] using hl.symm
  subst hn
  simp only [List.range'] at h
  simp only [List.cons.injEq] at h
  omega

/-- C4 (amended): each index group recorded by
`combine_chunks_with_no_minimum` is a contiguous run (an infix) of the
increasing sequence of non-dropped segment indices — so it is strictly
increasing, and any index missing between two of its members is a dropped
one — but it need not be a contiguous run of all original indices when a
middle segment is dropped. -/
theorem index_groups_contiguous_in_kept (tok : String → Nat) (M : Int)
    (d : String) (header : Option String) (ell : Bool) (chunks : List String) :
    ∀ g ∈ (combine_chunks_with_no_minimum tok chunks M d header ell).2.1,
      g <:+: (List.range chunks.length).filter
          (fun k => !(overflows tok M d header (chunks.getD k "")))
        ∧ g.Pairwise (· < ·) := by
  intro g hg
  have hinf := List.infix_of_mem_flatten hg
  rw [combine_flatten_eq_filter] at hinf
  have hF : ((List.range chunks.length).filter
      (fun k => !(overflows tok M d header (chunks.getD k "")))).Pairwise (· < ·) :=
    List.Pairwise.sublist (List.filter_sublist _) (List.pairwise_lt_range _)
  exact ⟨hinf, List.Pairwise.sublist ( List.IsInfix.sublist hinf) hF⟩

/-- Witness for C4's amended theorem at a concrete packing run. -/
theorem index_groups_contiguous_in_kept_witness :
    ([0, 1, 3] ∈ (combine_chunks_with_no_minimum String.length
        ["a", "b", "ccccc", "d"] 4 "" none true).2.1) ∧
    ([0, 1, 3] <:+: (List.range 4).filter
        (fun k => !(overflows String.length 4 "" none
          (["a", "b", "ccccc", "d"].getD k "")))
      ∧ ([0, 1, 3] : List Nat).Pairwise (· < ·)) :=
  ⟨by decide, index_groups_contiguous_in_kept String.length 4 "" none true
    ["a", "b", "ccccc", "d"] [0, 1, 3] (by decide)⟩

/-! ### Dropped-count accounting (claim C5) -/

lemma combineStep_dropped (tok : String → Nat) (M : Int) (d : String)
    (header : Option String) (ell : Bool) (st : CombineState) (i : Nat) (c : String) :
    (combineStep tok M d header ell st i c).dropped
      ≤ st.dropped + (if overflows tok M d header c then 1 else 0) := by
  unfold combineStep
  by_cases hov : M < (tok (pyJoin d (chunkWithHeader header c)) : Int)
  · simp only [if_pos hov, overflows, decide_eq_true_eq, hov, if_true]
    by_cases hel : ell = true ∧ (tok (pyJoin d (st.candidate ++ ["..."])) : Int) ≤ M
    · simp [if_pos hel]
    · simp [if_neg hel]
  · simp only [if_neg hov, overflows, decide_eq_true_eq, hov, if_false]
    by_cases hex : M < (tok (pyJoin d (st.candidate ++ [c])) : Int)
    · simp [if_pos hex]
    · simp [if_neg hex]

lemma combineLoop_dropped (tok : String → Nat) (M : Int) (d : String)
    (header : Option String) (ell : Bool) (l : List String) :
    ∀ (i : Nat) (st : CombineState),
      (combineLoop tok M d header ell i st l).dropped
        ≤ st.dropped + l.countP (overflows tok M d header) := by
  induction l with
  | nil => intro i st; simp [combineLoop]
  | cons c rest ih =>
      intro i st
      simp only [combineLoop]
      calc (combineLoop tok M d header ell (i + 1)
              (combineStep tok M d header ell st i c) rest).dropped
          ≤ (combineStep tok M d header ell st i c).dropped +
              rest.countP (overflows tok M d header) := ih (i + 1) _
        _ ≤ (st.dropped + (if overflows tok M d header c then 1 else 0)) +
              rest.countP (overflows tok M d header) := by
            exact Nat.add_le_add_right (combineStep_dropped tok M d header ell st i c) _
        _ = st.dropped + (c :: rest).countP (overflows tok M d header) := by
            rw [List.countP_cons]
            by_cases hov : overflows tok M d header c
            · simp [hov]
              omega
            · simp [hov]

/-- C5 counterexample: the segment `"zzzzz"` overflows alone but the
ellipsis marker does not fit in the current candidate, so it is skipped
without incrementing `dropped_chunk_count` — the returned dropped count is
0 while one segment exceeded `max_tokens`, and `chunk_on_delimiter` prints
no warning even though a segment was dropped. -/
theorem dropped_count_counterexample :
    (combine_chunks_with_no_minimum String.length ["abc", "zzzzz"] 3 "" none true).2.2 = 0
    ∧ ["abc", "zzzzz"].countP (overflows String.length 3 "" none) = 1
    ∧ (chunk_on_delimiter String.length "abc.zzzzz" 3 ".").2 = false
    ∧ (pySplit "abc.zzzzz" ".").countP (overflows String.length 3 "." none) = 1 := by
  decide

/-- C5 (amended): the dropped count returned by
`combine_chunks_with_no_minimum` counts only the oversized segments for
which an ellipsis marker was actually substituted, so it is at most the
number of segments whose header-prefixed form alone exceeds `max_tokens`
(it can undercount when the marker does not fit), and `chunk_on_delimiter`
reports its warning exactly when the returned dropped count is positive
(not whenever an oversized segment exists). -/
theorem dropped_count_bound_and_warning (tok : String → Nat) (M : Int)
    (d : String) (header : Option String) (ell : Bool) (chunks : List String)
    (text delim : String) (M' : Int) :
    (combine_chunks_with_no_minimum tok chunks M d header ell).2.2
        ≤ chunks.countP (overflows tok M d header)
    ∧ ((chunk_on_delimiter tok text M' delim).2 = true ↔
        0 < (combine_chunks_with_no_minimum tok (pySplit text delim)
          M' delim none true).2.2) := by
  constructor
  · have h := combineLoop_dropped tok M d header ell chunks 0
      ⟨0, [], [], initCandidate header, []⟩
    simp only [combine_chunks_with_no_minimum]
    set st := combineLoop tok M d header ell 0
      ⟨0, [], [], initCandidate header, []⟩ chunks with hst
    by_cases hg : (header ≠ none ∧ 1 < st.candidate.length) ∨
        (header = none ∧ 0 < st.candidate.length)
    · rw [if_pos hg]
      simpa using h
    · rw [if_neg hg]
      simpa using h
  · simp only [chunk_on_delimiter]
    exact decide_eq_true_iff

/-! ### Non-emptiness of the chunking pass (claims C8, C10) -/

lemma pySplitAux_ne_nil (sep : List Char) :
    ∀ (fuel : Nat) (s : List Char), pySplitAux sep fuel s ≠ [] := by
  intro fuel
  induction fuel with
  | zero => intro s; simp [pySplitAux]
  | succ n ih =>
      intro s
      rw [pySplitAux.eq_def]
      repeat' split
      all_goals simp

lemma pySplit_ne_nil (s sep : String) : pySplit s sep ≠ [] := by
  unfold pySplit
  split
  · simp
  · simp [pySplitAux_ne_nil]

lemma combineStep_cand_ne (tok : String → Nat) (M : Int) (d : String)
    (header : Option String) (ell : Bool) (st : CombineState) (i : Nat) (c : String)
    (h : st.candidate ≠ []) :
    (combineStep tok M d header ell st i c).candidate ≠ [] := by
  unfold combineStep
  by_cases hov : M < (tok (pyJoin d (chunkWithHeader header c)) : Int)
  · simp only [if_pos hov]
    by_cases hel : ell = true ∧ (tok (pyJoin d (st.candidate ++ ["..."])) : Int) ≤ M
    · simp [if_pos hel]
    · simp [if_neg hel, h]
  · simp only [if_neg hov]
    by_cases hex : M < (tok (pyJoin d (st.candidate ++ [c])) : Int)
    · simp only [if_pos hex]
      cases header <;> simp [chunkWithHeader]
    · simp [if_neg hex]

lemma combineLoop_cand_ne (tok : String → Nat) (M : Int) (d : String)
    (header : Option String) (ell : Bool) (l : List String) :
    ∀ (i : Nat) (st : CombineState), st.candidate ≠ [] →
      (combineLoop tok M d header ell i st l).candidate ≠ [] := by
  induction l with
  | nil => intro i st h; exact h
  | cons c rest ih =>
      intro i st h
      simp only [combineLoop]
      exact ih (i + 1) _ (combineStep_cand_ne tok M d header ell st i c h)

lemma combineLoop_cand_ne_of_cons (tok : String → Nat) (M : Int) (d : String)
    (htok : (tok "..." : Int) ≤ M) (c : String) (rest : List String)
    (i : Nat) (st : CombineState) (hc : st.candidate = []) :
    (combineLoop tok M d none true i st (c :: rest)).candidate ≠ [] := by
  simp only [combineLoop]
  apply combineLoop_cand_ne
  unfold combineStep
  by_cases hov : M < (tok (pyJoin d (chunkWithHeader none c)) : Int)
  · simp only [if_pos hov]
    have hfit : True ∧ (tok (pyJoin d (st.candidate ++ ["..."])) : Int) ≤ M := by
      refine ⟨trivial, ?_⟩
      rw [hc]
      simpa [pyJoin] using htok
    rw [if_pos hfit]
    simp
  · simp only [if_neg hov]
    by_cases hex : M < (tok (pyJoin d (st.candidate ++ [c])) : Int)
    · simp [if_pos hex, chunkWithHeader]
    · simp [if_neg hex]

lemma combine_output_ne_nil (tok : String → Nat) (M : Int) (d : String)
    (chunks : List String) (hchunks : chunks ≠ []) (htok : (tok "..." : Int) ≤ M) :
    (combine_chunks_with_no_minimum tok chunks M d none true).1 ≠ [] := by
  simp only [combine_chunks_with_no_minimum]
  obtain ⟨c, rest, rfl⟩ := List.exists_cons_of_ne_nil hchunks
  have hcand := combineLoop_cand_ne_of_cons tok M d htok c rest 0
    ⟨0, [], [], initCandidate none, []⟩ (by simp [initCandidate])
  set st := combineLoop tok M d none true 0
    ⟨0, [], [], initCandidate none, []⟩ (c :: rest) with hst
  have hg : ((none : Option String) ≠ none ∧ 1 < st.candidate.length) ∨
      (True ∧ 0 < st.candidate.length) :=
    Or.inr ⟨trivial, List.length_pos.mpr hcand⟩
  rw [if_pos hg]
  simp

lemma chunk_on_delimiter_ne_nil (tok : String → Nat) (text delim : String)
    (M : Int) (htok : (tok "..." : Int) ≤ M) :
    (chunk_on_delimiter tok text M delim).1 ≠ [] := by
  simp only [chunk_on_delimiter, ne_eq, List.map_eq_nil_iff]
  exact combine_output_ne_nil tok M delim (pySplit text delim)
    (pySplit_ne_nil text delim) htok

lemma ratTrunc_eq_floor (q : ℚ) (h : 0 ≤ q) : ratTrunc q = ⌊q⌋ :=
  if_neg (not_lt.mpr h)

/-! ### Detail interpolation (claims C3, C7, C8, C10) -/

/-- C3: for `detail` in `[0,1]`, `summarize` computes `max_chunks` as the
length of the probe `chunk_on_delimiter(text, minimum_chunk_size,
chunk_delimiter)`, `num_chunks = floor(1 + detail * (max_chunks - 1))`
(`min_chunks = 1`), `chunk_size = max(minimum_chunk_size,
document_token_count // num_chunks)`, and then re-chunks the text at
`chunk_size` with the same delimiter for the real pass. -/
theorem summarize_interpolation (tok : String → Nat)
    (complete : String → String → String) (text : String)
    (ai : Option String) (mcs : Int) (delim : String) (rec : Bool)
    (detail : ℚ) (h0 : 0 ≤ detail) (h1 : detail ≤ 1) :
    max_chunks tok text mcs delim = ((chunk_on_delimiter tok text mcs delim).1).length
    ∧ num_chunks tok text detail mcs delim
        = ⌊(1 : ℚ) + detail * ((max_chunks tok text mcs delim : ℚ) - 1)⌋
    ∧ chunk_size tok text detail mcs delim
        = max mcs (Int.fdiv (tok text : Int) (num_chunks tok text detail mcs delim))
    ∧ summarize tok complete text detail ai mcs delim rec
        = some (pyJoin "\n\n" ((runChunks complete (system_message_content ai) rec []
            ((chunk_on_delimiter tok text
              (chunk_size tok text detail mcs delim) delim).1)).map Prod.snd)) := by
  refine ⟨rfl, ?_, rfl, ?_⟩
  · unfold num_chunks
    apply ratTrunc_eq_floor
    have hm : (0 : ℚ) ≤ (max_chunks tok text mcs delim : ℚ) := by positivity
    nlinarith [mul_nonneg h0 hm]
  · unfold summarize
    rw [if_pos ⟨h0, h1⟩]

/-- Witness for C3 at a concrete tokenizer, text and detail value. -/
theorem summarize_interpolation_witness :
    ((0 : ℚ) ≤ 0 ∧ (0 : ℚ) ≤ 1) ∧
    (max_chunks String.length "ab.cd" 2 "."
        = ((chunk_on_delimiter String.length "ab.cd" 2 ".").1).length
    ∧ num_chunks String.length "ab.cd" 0 2 "."
        = ⌊(1 : ℚ) + 0 * ((max_chunks String.length "ab.cd" 2 "." : ℚ) - 1)⌋
    ∧ chunk_size String.length "ab.cd" 0 2 "."
        = max 2 (Int.fdiv (String.length "ab.cd" : Int)
            (num_chunks String.length "ab.cd" 0 2 "."))
    ∧ summarize String.length (fun _ u => u) "ab.cd" 0 none 2 "." false
        = some (pyJoin "\n\n" ((runChunks (fun _ u => u)
            (system_message_content none) false []
            ((chunk_on_delimiter String.length "ab.cd"
              (chunk_size String.length "ab.cd" 0 2 ".") ".").1)).map Prod.snd))) :=
  ⟨⟨le_refl 0, by decide⟩,
    summarize_interpolation String.length (fun _ u => u) "ab.cd" none 2 "." false 0
      (le_refl 0) (by decide)⟩

/-- C7: for every `detail` outside `[0,1]`, `summarize` fails its leading
assertion and returns no summary — for every tokenizer and every
completion oracle, so no chunking work and no completion call can have
influenced the outcome — while for `detail` in `[0,1]` the check passes
and a summary is produced. -/
theorem detail_precondition (tok : String → Nat)
    (complete : String → String → String) (text : String) (ai : Option String)
    (mcs : Int) (delim : String) (rec : Bool) (detail : ℚ) :
    (¬(0 ≤ detail ∧ detail ≤ 1) →
      summarize tok complete text detail ai mcs delim rec = none)
    ∧ ((0 ≤ detail ∧ detail ≤ 1) →
      ∃ s, summarize tok complete text detail ai mcs delim rec = some s) := by
  constructor
  · intro h
    unfold summarize
    rw [if_neg h]
  · intro h
    unfold summarize
    rw [if_pos h]
    exact ⟨_, rfl⟩

/-- Witness for C7: `detail = 2` is rejected, `detail = 0` is accepted. -/
theorem detail_precondition_witness :
    (¬((0 : ℚ) ≤ 2 ∧ (2 : ℚ) ≤ 1)) ∧
    (summarize String.length (fun _ u => u) "t" 2 none 5 "." false = none) ∧
    ((0 : ℚ) ≤ 0 ∧ (0 : ℚ) ≤ 1) ∧
    (∃ s, summarize String.length (fun _ u => u) "t" 0 none 5 "." false = some s) :=
  ⟨by decide,
    (detail_precondition String.length (fun _ u => u) "t" none 5 "." false 2).1 (by decide),
    by decide,
    (detail_precondition String.length (fun _ u => u) "t" none 5 "." false 0).2 (by decide)⟩

/-- C8: for a fixed text, `minimum_chunk_size` and delimiter, the
interpolated `num_chunks` computed by `summarize` is monotonically
non-decreasing in `detail` (the tokenizer gives the ellipsis marker at
most `minimum_chunk_size` tokens, as the real tokenizer does — it counts
`"..."` as one token and the chunk-size floor is at least one). -/
theorem num_chunks_monotone (tok : String → Nat) (text delim : String)
    (mcs : Int) (htok : (tok "..." : Int) ≤ mcs)
    (d1 d2 : ℚ) (h0 : 0 ≤ d1) (h12 : d1 ≤ d2) (h1 : d2 ≤ 1) :
    num_chunks tok text d1 mcs delim ≤ num_chunks tok text d2 mcs delim := by
  have hne := chunk_on_delimiter_ne_nil tok text delim mcs htok
  have hmax : 0 < max_chunks tok text mcs delim := by
    unfold max_chunks
    exact List.length_pos.mpr hne
  have hMq : (1 : ℚ) ≤ (max_chunks tok text mcs delim : ℚ) := by exact_mod_cast hmax
  have hterm : (0 : ℚ) ≤ (max_chunks tok text mcs delim : ℚ) - 1 := by linarith
  have hle : (1 : ℚ) + d1 * ((max_chunks tok text mcs delim : ℚ) - 1)
      ≤ 1 + d2 * ((max_chunks tok text mcs delim : ℚ) - 1) := by
    have := mul_le_mul_of_nonneg_right h12 hterm
    linarith
  have hq1 : (0 : ℚ) ≤ 1 + d1 * ((max_chunks tok text mcs delim : ℚ) - 1) := by
    have := mul_nonneg h0 hterm
    linarith
  have hq2 : (0 : ℚ) ≤ 1 + d2 * ((max_chunks tok text mcs delim : ℚ) - 1) := by
    have := mul_nonneg (h0.trans h12) hterm
    linarith
  unfold num_chunks
  rw [ratTrunc_eq_floor _ hq1, ratTrunc_eq_floor _ hq2]
  exact Int.floor_le_floor hle

/-- Witness for C8 at a concrete tokenizer, text, and detail pair. -/
theorem num_chunks_monotone_witness :
    ((String.length "..." : Int) ≤ 5 ∧ (0 : ℚ) ≤ 0 ∧ (0 : ℚ) ≤ 1 ∧ (1 : ℚ) ≤ 1) ∧
    num_chunks String.length "ab.cd.ef" 0 5 "."
      ≤ num_chunks String.length "ab.cd.ef" 1 5 "." :=
  ⟨⟨by decide, le_refl 0, by decide, le_refl 1⟩,
    num_chunks_monotone String.length "ab.cd.ef" "." 5 (by decide) 0 1
      (le_refl 0) (by decide) (le_refl 1)⟩

/-- C10: `chunk_on_delimiter` always returns a non-empty list (the split
yields at least one segment, and an overflowing first segment is replaced
by an ellipsis marker that fits, the marker counting at most one token);
consequently in `summarize` `max_chunks ≥ 1`, `num_chunks ≥ 1` for every
`detail` in `[0,1]`, and the division `document_token_count // num_chunks`
never divides by zero. -/
theorem chunking_nonempty_no_div_zero (tok : String → Nat)
    (text delim : String) (M : Int) (hM : 1 ≤ M) (htok : tok "..." ≤ 1)
    (mcs : Int) (hmcs : 1 ≤ mcs) (detail : ℚ) (h0 : 0 ≤ detail) (h1 : detail ≤ 1) :
    (chunk_on_delimiter tok text M delim).1 ≠ []
    ∧ 1 ≤ max_chunks tok text mcs delim
    ∧ 1 ≤ num_chunks tok text detail mcs delim
    ∧ num_chunks tok text detail mcs delim ≠ 0 := by
  have htokM : (tok "..." : Int) ≤ M := by
    have : (tok "..." : Int) ≤ 1 := by exact_mod_cast htok
    omega
  have htokmcs : (tok "..." : Int) ≤ mcs := by
    have : (tok "..." : Int) ≤ 1 := by exact_mod_cast htok
    omega
  have h1' := chunk_on_delimiter_ne_nil tok text delim M htokM
  have hmax : 1 ≤ max_chunks tok text mcs delim := by
    unfold max_chunks
    exact List.length_pos.mpr (chunk_on_delimiter_ne_nil tok text delim mcs htokmcs)
  have hMq : (1 : ℚ) ≤ (max_chunks tok text mcs delim : ℚ) := by exact_mod_cast hmax
  have hterm : (0 : ℚ) ≤ (max_chunks tok text mcs delim : ℚ) - 1 := by linarith
  have hq : (1 : ℚ) ≤ 1 + detail * ((max_chunks tok text mcs delim : ℚ) - 1) := by
    have := mul_nonneg h0 hterm
    linarith
  have hnum : 1 ≤ num_chunks tok text detail mcs delim := by
    unfold num_chunks
    rw [ratTrunc_eq_floor _ (by linarith)]
    exact Int.le_floor.mpr (by exact_mod_cast hq)
  exact ⟨h1', hmax, hnum, by omega⟩

/-- Witness for C10 with a single-token-per-string tokenizer oracle. -/
theorem chunking_nonempty_no_div_zero_witness :
    ((1 : Int) ≤ 4 ∧ (fun _ : String => 1) "..." ≤ 1 ∧ (1 : Int) ≤ 3 ∧
      (0 : ℚ) ≤ 0 ∧ (0 : ℚ) ≤ 1) ∧
    ((chunk_on_delimiter (fun _ => 1) "ab.cd" 4 ".").1 ≠ []
    ∧ 1 ≤ max_chunks (fun _ => 1) "ab.cd" 3 "."
    ∧ 1 ≤ num_chunks (fun _ => 1) "ab.cd" 0 3 "."
    ∧ num_chunks (fun _ => 1) "ab.cd" 0 3 "." ≠ 0) :=
  ⟨⟨by decide, by decide, by decide, le_refl 0, by decide⟩,
    chunking_nonempty_no_div_zero (fun _ => 1) "ab.cd" "." 4 (by decide)
      (by decide) 3 (by decide) 0 (le_refl 0) (by decide)⟩

/-! ### Trailing delimiter (claim C9) -/

/-- C9: every string returned by `chunk_on_delimiter` ends with the
delimiter — it is some prefix followed by the delimiter — including the
final chunk, whether or not the source text ended with the delimiter. -/
theorem chunks_end_with_delimiter (tok : String → Nat) (text : String)
    (M : Int) (delim : String) :
    ∀ c ∈ (chunk_on_delimiter tok text M delim).1, ∃ p, c = p ++ delim := by
  intro c hc
  simp only [chunk_on_delimiter] at hc
  rcases List.mem_map.mp hc with ⟨o, _, rfl⟩
  exact ⟨o, rfl⟩

/-- Witness for C9 on a text that does not end with the delimiter. -/
theorem chunks_end_with_delimiter_witness :
    ("ab." ∈ (chunk_on_delimiter String.length "ab" 5 ".").1) ∧
    (∃ p, "ab." = p ++ ".") :=
  ⟨by decide,
    chunks_end_with_delimiter String.length "ab" 5 "." "ab." (by decide)⟩

/-! ### Recursive prompt construction (claim C6) -/

lemma runChunks_length (complete : String → String → String) (sys : String)
    (rec : Bool) (l : List String) :
    ∀ acc, (runChunks complete sys rec acc l).length = l.length := by
  induction l with
  | nil => intro acc; simp [runChunks]
  | cons c cs ih => intro acc; simp [runChunks, ih]

lemma runChunks_take (complete : String → String → String) (sys : String)
    (rec : Bool) (l : List String) :
    ∀ (acc : List String) (j : Nat),
      runChunks complete sys rec acc (l.take j)
        = (runChunks complete sys rec acc l).take j := by
  induction l with
  | nil => intro acc j; simp [runChunks]
  | cons c cs ih =>
      intro acc j
      cases j with
      | zero => simp [runChunks]
      | succ n => simp [runChunks, List.take_succ_cons, ih]

lemma runChunks_getD_fst (complete : String → String → String) (sys : String)
    (rec : Bool) (l : List String) :
    ∀ (acc : List String) (i : Nat), i < l.length →
      ((runChunks complete sys rec acc l).getD i ("", "")).1
        = user_message_content rec
            (acc ++ ((runChunks complete sys rec acc l).map Prod.snd).take i)
            (l.getD i "") := by
  induction l with
  | nil => intro acc i hi; simp at hi
  | cons c cs ih =>
      intro acc i hi
      cases i with
      | zero => simp [runChunks]
      | succ n =>
          have hn : n < cs.length := by simpa using hi
          simp only [runChunks, List.getD_cons_succ, List.map_cons, List.take_succ_cons]
          set s0 := complete sys (user_message_content rec acc c) with hs0
          have hacc : acc ++ s0 :: List.take n (List.map Prod.snd
              (runChunks complete sys rec (acc ++ [s0]) cs))
              = (acc ++ [s0]) ++ List.take n (List.map Prod.snd
                (runChunks complete sys rec (acc ++ [s0]) cs)) := by
            simp
          rw [hacc]
          exact ih (acc ++ [s0]) n hn

/-- C6: in `summarize`'s loop, the user message for the chunk at position
`i` is, in recursive mode with at least one prior summary (`i ≠ 0`), the
literal string `"Previous summaries:\n\n"` followed by summaries `0..i-1`
joined by `"\n\n"`, then `"\n\nText to summarize next:\n\n"` and chunk
`i`'s text; for chunk 0, and in non-recursive mode, it is the chunk text
verbatim.  Moreover the run over the first `j` chunks is a prefix of the
full run, so summary `i` never depends on chunks `i+1..n-1`. -/
theorem recursive_prompt_shape (complete : String → String → String)
    (sys : String) (rec : Bool) (l : List String) (i j : Nat) (hi : i < l.length) :
    (((runChunks complete sys rec [] l).getD i ("", "")).1
      = if rec = true ∧ i ≠ 0 then
          "Previous summaries:\n\n" ++
            pyJoin "\n\n" (((runChunks complete sys rec [] l).map Prod.snd).take i) ++
            "\n\nText to summarize next:\n\n" ++ l.getD i ""
        else l.getD i "")
    ∧ runChunks complete sys rec [] (l.take j)
        = (runChunks complete sys rec [] l).take j := by
  refine ⟨?_, runChunks_take complete sys rec l [] j⟩
  rw [runChunks_getD_fst complete sys rec l [] i hi, List.nil_append]
  unfold user_message_content
  by_cases hrec : rec = true
  · by_cases hi0 : i = 0
    · subst hi0
      simp
    · have hne : ((runChunks complete sys rec [] l).map Prod.snd).take i ≠ [] := by
        have hlen : ((runChunks complete sys rec [] l).map Prod.snd).length
            = l.length := by
          rw [List.length_map, runChunks_length]
        intro hnil
        rcases List.take_eq_nil_iff.mp hnil with h | h
        · exact hi0 h
        · rw [h] at hlen
          simp at hlen
          omega
      rw [if_pos ⟨hrec, hne⟩, if_pos ⟨hrec, hi0⟩]
  · simp [hrec]

/-- Witness for C6 with three chunks in recursive mode, at chunk 2. -/
theorem recursive_prompt_shape_witness :
    (2 < (["a", "b", "c"] : List String).length) ∧
    ((((runChunks (fun _ u => "[" ++ u ++ "]") "s" true [] ["a", "b", "c"]).getD
          2 ("", "")).1
      = if true = true ∧ 2 ≠ 0 then
          "Previous summaries:\n\n" ++
            pyJoin "\n\n" (((runChunks (fun _ u => "[" ++ u ++ "]") "s" true []
              ["a", "b", "c"]).map Prod.snd).take 2) ++
            "\n\nText to summarize next:\n\n" ++
            (["a", "b", "c"] : List String).getD 2 ""
        else (["a", "b", "c"] : List String).getD 2 "")
    ∧ runChunks (fun _ u => "[" ++ u ++ "]") "s" true []
          ((["a", "b", "c"] : List String).take 2)
        = (runChunks (fun _ u => "[" ++ u ++ "]") "s" true []
            ["a", "b", "c"]).take 2) :=
  ⟨by decide, recursive_prompt_shape (fun _ u => "[" ++ u ++ "]") "s" true
    ["a", "b", "c"] 2 2 (by decide)⟩

end BookSum
